import Mathlib

/-!
Shallow embedding of `src/route_merger.py` (bus_optimization_project).

Stops and route identifiers are natural numbers; distances and demands are
rationals (Python floats are used only through arithmetic and comparisons,
which ℚ models exactly for the finitely many values any run manipulates).

The Python code threads three dictionaries keyed by the same route ids
(`routes`, `route_demands`, `route_stop_demands`); the embedding fuses them
into one association list of `RouteEntry` records, preserving the dicts'
insertion order, which drives iteration order in the source.

The mutable `MergeLogger` is modelled by returning the list of logged merge
operations (and removed routes) alongside each result; crucially, as in the
source, operations logged during an attempt that later fails are still
returned (the Python logger object is not rolled back inside one trial).
-/

namespace RouteMerger

-- ℚ arithmetic must evaluate on concrete scenario inputs; Batteries marks
-- these operations irreducible, which only blocks elaborator-side reduction.
attribute [local semireducible] Rat.add Rat.mul Rat.inv Rat.sub Rat.ofScientific

abbrev Stop := Nat
abbrev RId := Nat

/-- Constants from the top of `route_merger.py`. -/
def MAX_CAPACITY : ℚ := 60
def DISTANCE_THRESHOLD : ℚ := 3
def DEMAND_IGNORE_THRESHOLD : ℚ := 2
def MAX_IGNORED_DEMAND : ℚ := 5
def MIN_CLOSER_THRESHOLD : ℚ := 1/2

/-- One record of `MergeLogger.log_merge_operation`. -/
structure MergeOp where
  fromRoute : RId
  toRoute : RId
  stop : Stop
  demand : ℚ
  insertPos : Nat
deriving DecidableEq, Repr

/-- One route's slice of the working state: its id, ordered stop list,
running total demand (`route_demands[rid]`) and per-stop demand ledger
(`route_stop_demands[rid]`, an insertion-ordered dict). -/
structure RouteEntry where
  rid : RId
  stops : List Stop
  total : ℚ
  ledger : List (Stop × ℚ)
deriving DecidableEq, Repr

/-- Python `dict.get(k)` on an insertion-ordered association list. -/
def alookup {α : Type} (k : Nat) : List (Nat × α) → Option α
  | [] => none
  | (k', v) :: rest => if k' = k then some v else alookup k rest

/-- First entry with the given route id (`alive_routes[rid]` etc.). -/
def findEntry (r : RId) : List RouteEntry → Option RouteEntry
  | [] => none
  | e :: rest => if e.rid = r then some e else findEntry r rest

/-- `del dict[r]` on the fused state (route ids are unique in any dict). -/
def eraseEntry (r : RId) : List RouteEntry → List RouteEntry :=
  List.filter (fun e => decide (e.rid ≠ r))

/-- Sum of a per-stop demand ledger's values. -/
def ledgerSum (l : List (Stop × ℚ)) : ℚ := (l.map (fun p => p.2)).sum

/-- Sum of per-stop demand over all routes of a state. -/
def totalLedgerSum (st : List RouteEntry) : ℚ :=
  (st.map (fun e => ledgerSum e.ledger)).sum

/-- `if stop not in d: d[stop] = 0; d[stop] += demand` (lines 166-168):
bump the stop's ledger entry in place, or append it at the end. -/
def bumpLedger (s : Stop) (d : ℚ) : List (Stop × ℚ) → List (Stop × ℚ)
  | [] => [(s, d)]
  | (k, v) :: rest => if k = s then (k, v + d) :: rest else (k, v) :: bumpLedger s d rest

/-- Python `list.insert(pos, x)`: insert at `pos`, clamping to append. -/
def pyInsert (pos : Nat) (x : Stop) : List Stop → List Stop
  | [] => [x]
  | y :: ys =>
    match pos with
    | 0 => x :: y :: ys
    | p + 1 => y :: pyInsert p x ys

/-- Lines 137-158: test insertion position `i` of a receiving route's stop
list for the candidate stop `s`; return the detour increase when the
position passes the direction, interpolation and detour-threshold checks. -/
def posCand (dm : Stop → Stop → ℚ) (college s : Stop) (stops : List Stop) (i : Nat) : Option ℚ :=
  match stops.get? i with
  | none => none
  | some cur =>
    if dm s college + MIN_CLOSER_THRESHOLD < dm cur college then
      match stops.get? (i + 1) with
      | none =>
        let inc := dm cur s + dm s college - dm cur college
        if inc < DISTANCE_THRESHOLD then some inc else none
      | some nxt =>
        if dm cur college ≥ dm s college ∧ dm s college ≥ dm nxt college then
          let inc := dm cur s + dm s nxt - dm cur nxt
          if inc < DISTANCE_THRESHOLD then some inc else none
        else none
    else none

/-- Lines 127-161, flattened: the stream of candidate insertions
`(receiving route id, insert position, detour increase)` in the exact
iteration order of the source (routes in state order, positions left to
right), with the candidate's own route and over-capacity routes skipped. -/
def routeCands (st : List RouteEntry) (removeId : RId) (dm : Stop → Stop → ℚ)
    (college s : Stop) (sd : ℚ) : List (RId × Nat × ℚ) :=
  st.flatMap (fun e =>
    if e.rid = removeId then []
    else if e.total + sd > MAX_CAPACITY then []
    else (List.range e.stops.length).filterMap
      (fun i => (posCand dm college s e.stops i).map (fun inc => (e.rid, i + 1, inc))))

/-- The running `best_increase / best_route_id / best_insert_pos` update:
replace the best candidate only on strictly smaller increase. -/
def stepBest (b : Option (RId × Nat × ℚ)) (c : RId × Nat × ℚ) : Option (RId × Nat × ℚ) :=
  match b with
  | none => some c
  | some b' => if c.2.2 < b'.2.2 then some c else some b'

/-- Lines 122-161: the best admissible insertion for stop `s` (demand `sd`)
across all surviving routes, or `none` when no position is admissible. -/
def find_best (st : List RouteEntry) (removeId : RId) (dm : Stop → Stop → ℚ)
    (college s : Stop) (sd : ℚ) : Option (RId × Nat × ℚ) :=
  (routeCands st removeId dm college s sd).foldl stepBest none

/-- Apply one accepted insertion (lines 164-169) to the state: the receiving
route's stop list, running total and ledger are all updated. -/
def applyInsert (st : List RouteEntry) (r : RId) (pos : Nat) (s : Stop) (d : ℚ) :
    List RouteEntry :=
  st.map (fun e =>
    if e.rid = r then
      { e with stops := pyInsert pos s e.stops, total := e.total + d,
               ledger := bumpLedger s d e.ledger }
    else e)

/-- `verify_and_correct_order` (lines 84-98): reorder (and filter) a route's
stops by its recorded canonical order; routes without a record are returned
unchanged. -/
def verify_and_correct_order (route_id : RId) (stops : List Stop)
    (original_orders : List (RId × List Stop)) : List Stop :=
  match alookup route_id original_orders with
  | none => stops
  | some original_stops => original_stops.filter (fun s => decide (s ∈ stops))

/-- Lines 197-202: order-correct every route that has a canonical order. -/
def correctAll (original_orders : List (RId × List Stop)) (st : List RouteEntry) :
    List RouteEntry :=
  st.map (fun e =>
    if (alookup e.rid original_orders).isSome then
      { e with stops := verify_and_correct_order e.rid e.stops original_orders }
    else e)

/-- Lines 114-187: the per-stop loop of `try_merge_route`. Threads the
temporary state, the ignored-demand accumulator and the operations appended
to the logger; returns `none` for the state when a required stop has no
admissible placement.  The logged operations are returned in all cases,
mirroring the Python logger, which keeps entries of a failed attempt. -/
def tryLoop (removeId : RId) (candLedger : List (Stop × ℚ)) (dm : Stop → Stop → ℚ)
    (college : Stop) (faculty : List Stop) :
    List Stop → List RouteEntry → ℚ → List MergeOp →
    Option (List RouteEntry × ℚ) × List MergeOp
  | [], st, ign, ops => (some (st, ign), ops)
  | s :: rest, st, ign, ops =>
    let sd := (alookup s candLedger).getD 0
    if sd ≤ DEMAND_IGNORE_THRESHOLD ∧ s ∉ faculty then
      tryLoop removeId candLedger dm college faculty rest st (ign + sd) ops
    else
      match find_best st removeId dm college s sd with
      | none => (none, ops)
      | some (r, p, _) =>
        tryLoop removeId candLedger dm college faculty rest
          (applyInsert st r p s sd) ign (ops ++ [⟨removeId, r, s, sd, p⟩])

/-- `try_merge_route` (lines 100-207): attempt to dissolve one candidate
route into the others.  On success the candidate is deleted and every route
with a canonical order is order-corrected; on failure the state component is
`none`.  The second component is the list of merge operations appended to
the logger during the attempt (also on failure, as in the source). -/
def try_merge_route (removeId : RId) (st : List RouteEntry) (dm : Stop → Stop → ℚ)
    (college : Stop) (faculty : List Stop) (original_orders : List (RId × List Stop)) :
    Option (List RouteEntry) × List MergeOp :=
  let cand := findEntry removeId st
  let candStops := (cand.map (fun e => e.stops)).getD []
  let candLedger := (cand.map (fun e => e.ledger)).getD []
  match tryLoop removeId candLedger dm college faculty candStops st 0 [] with
  | (none, ops) => (none, ops)
  | (some (st', ign), ops) =>
    if ign > MAX_IGNORED_DEMAND then (none, ops)
    else (some (correctAll original_orders (eraseEntry removeId st')), ops)

/-- Result of one trial of the subset search: final working state, number of
routes removed, merge operations logged (chronological, including those of
failed attempts), and the removed route ids (chronological). -/
structure Trial where
  state : List RouteEntry
  removedCount : Nat
  ops : List MergeOp
  removed : List RId
deriving DecidableEq, Repr

/-- Lines 276-289: attempt the members of one combination in order against a
working copy of the state.  A member no longer present is skipped; a failed
attempt leaves the state untouched but keeps its logged operations. -/
def runT (dm : Stop → Stop → ℚ) (college : Stop) (faculty : List Stop)
    (original_orders : List (RId × List Stop)) :
    List RouteEntry → List RId → Trial
  | st, [] => ⟨st, 0, [], []⟩
  | st, m :: ms =>
    if (findEntry m st).isSome then
      let res := try_merge_route m st dm college faculty original_orders
      match res.1 with
      | some st' =>
        let t := runT dm college faculty original_orders st' ms
        ⟨t.state, t.removedCount + 1, res.2 ++ t.ops, m :: t.removed⟩
      | none =>
        let t := runT dm college faculty original_orders st ms
        ⟨t.state, t.removedCount, res.2 ++ t.ops, t.removed⟩
    else runT dm college faculty original_orders st ms

/-- `itertools.combinations`: all length-`k` subsequences of a list, in the
source's enumeration order. -/
def combos : Nat → List RId → List (List RId)
  | 0, _ => [[]]
  | _ + 1, [] => []
  | k + 1, x :: xs => (combos k xs).map (fun l => x :: l) ++ combos (k + 1) xs

/-- Lines 268-269: all combinations, subset sizes `k = 1 .. n` ascending. -/
def allCombos (ids : List RId) : List (List RId) :=
  (List.range ids.length).flatMap (fun k => combos (k + 1) ids)

/-- One input route of `merge_routes`: id, ordered stops, per-stop demands. -/
structure RouteIn where
  rid : RId
  stops : List Stop
  ledger : List (Stop × ℚ)
deriving DecidableEq, Repr

/-- Lines 247-251: initial fused state; each route's running total is the
sum of its ledger entries. -/
def initState (input : List RouteIn) : List RouteEntry :=
  input.map (fun r => ⟨r.rid, r.stops, ledgerSum r.ledger, r.ledger⟩)

/-- What `merge_routes` returns (plus the ledger parts the claims inspect):
final state, the final logger's merge operations and removed routes. -/
structure MergeResult where
  state : List RouteEntry
  ops : List MergeOp
  removed : List RId
deriving DecidableEq, Repr

/-- The `if t.removedCount > b.removedCount` best-solution update. -/
def stepTrial (b t : Trial) : Trial :=
  if t.removedCount > b.removedCount then t else b

/-- `merge_routes` (lines 209-319): enumerate removal combinations, run each
trial from an independent copy of the initial state, keep the first trial
with the strictly highest removal count, and revert to the original inputs
when no trial removes any route. -/
def merge_routes (input : List RouteIn) (dm : Stop → Stop → ℚ) (college : Stop)
    (faculty : List Stop) (original_orders : List (RId × List Stop)) : MergeResult :=
  let init := initState input
  let ids := input.map (fun r => r.rid)
  let trials := (allCombos ids).map (fun c => runT dm college faculty original_orders init c)
  let best := trials.foldl stepTrial ⟨init, 0, [], []⟩
  if best.removedCount = 0 then ⟨init, [], []⟩
  else ⟨best.state, best.ops, best.removed⟩

/-- The trials of the subset search, one per enumerated combination, each run
from an independent copy of the initial state (view of `merge_routes`). -/
def mergeTrials (input : List RouteIn) (dm : Stop → Stop → ℚ) (college : Stop)
    (faculty : List Stop) (original_orders : List (RId × List Stop)) : List Trial :=
  (allCombos (input.map (fun r => r.rid))).map
    (fun c => runT dm college faculty original_orders (initState input) c)

/-- The best trial kept by the subset search (view of `merge_routes`). -/
def mergeBest (input : List RouteIn) (dm : Stop → Stop → ℚ) (college : Stop)
    (faculty : List Stop) (original_orders : List (RId × List Stop)) : Trial :=
  (mergeTrials input dm college faculty original_orders).foldl stepTrial
    ⟨initState input, 0, [], []⟩

/-- Spec-side reading of §4.1 steps 4: position `i` of a receiving route is
admissible for candidate stop `s` with detour cost `inc` iff `s` is at least
the minimum-closer margin nearer the hub than the stop at `i`, `s`'s
hub-distance interpolates between its neighbours' when a next stop exists,
and the detour cost is below the detour threshold. -/
def admissibleAt (dm : Stop → Stop → ℚ) (college s : Stop) (stops : List Stop)
    (i : Nat) (inc : ℚ) : Prop :=
  ∃ cur, stops.get? i = some cur ∧
    dm s college + MIN_CLOSER_THRESHOLD < dm cur college ∧
    (∀ nxt, stops.get? (i + 1) = some nxt →
      dm cur college ≥ dm s college ∧ dm s college ≥ dm nxt college ∧
      inc = dm cur s + dm s nxt - dm cur nxt) ∧
    (stops.get? (i + 1) = none → inc = dm cur s + dm s college - dm cur college) ∧
    inc < DISTANCE_THRESHOLD

/-- Total route-specific demand of a candidate route's stops (what the
ignored-demand accumulator collects when every stop is ignorable). -/
def candIgnoredSum (e : RouteEntry) : ℚ :=
  (e.stops.map (fun s => (alookup s e.ledger).getD 0)).sum

/-- Hub-distances are non-increasing along a stop sequence (§8 directional
monotonicity). -/
def nonIncTo (dm : Stop → Stop → ℚ) (college : Stop) (stops : List Stop) : Prop :=
  List.Chain' (fun a b => dm b college ≤ dm a college) stops

/-- Invariant backing the capacity claim: route ids are unique, every running
total agrees with its ledger sum, and every total is within capacity. -/
def CapInv (st : List RouteEntry) : Prop :=
  (st.map (fun e => e.rid)).Nodup ∧
  ∀ e ∈ st, e.total = ledgerSum e.ledger ∧ e.total ≤ MAX_CAPACITY

/-- Invariant backing the monotonicity claim: route ids are unique and every
route's stop sequence is non-increasing in hub-distance. -/
def ChainInv (dm : Stop → Stop → ℚ) (college : Stop) (st : List RouteEntry) : Prop :=
  (st.map (fun e => e.rid)).Nodup ∧ ∀ e ∈ st, nonIncTo dm college e.stops

/-- The subsequence of trial members whose removal attempt succeeds when the
members are attempted in order from the given state (the failed and skipped
members are dropped; they leave the state unchanged). -/
def goodSub (dm : Stop → Stop → ℚ) (college : Stop) (faculty : List Stop)
    (original_orders : List (RId × List Stop)) :
    List RouteEntry → List RId → List RId
  | _, [] => []
  | st, m :: ms =>
    if (findEntry m st).isSome then
      match (try_merge_route m st dm college faculty original_orders).1 with
      | some st' => m :: goodSub dm college faculty original_orders st' ms
      | none => goodSub dm college faculty original_orders st ms
    else goodSub dm college faculty original_orders st ms

/-- Distance oracle for the concrete scenarios: hub is stop 0. -/
def dmEx : Stop → Stop → ℚ := fun a b =>
  if a = b then 0
  else if (a = 1 ∧ b = 0) ∨ (a = 0 ∧ b = 1) then 1
  else if (a = 2 ∧ b = 0) ∨ (a = 0 ∧ b = 2) then 2
  else if (a = 3 ∧ b = 0) ∨ (a = 0 ∧ b = 3) then 4
  else if (a = 2 ∧ b = 1) ∨ (a = 1 ∧ b = 2) then 1
  else if (a = 3 ∧ b = 1) ∨ (a = 1 ∧ b = 3) then 7/2
  else if (a = 3 ∧ b = 2) ∨ (a = 2 ∧ b = 3) then 2
  else 100

/-- Three routes sharing stop 1 between routes 10 and 20; removing 10 pushes
stop 1 into route 20 (which already visits it), and then removing 20 counts
the combined demand of stop 1 twice. -/
def exInput : List RouteIn :=
  [⟨10, [1], [(1, 4)]⟩, ⟨20, [2, 1], [(2, 4), (1, 3)]⟩, ⟨30, [3], [(3, 4)]⟩]

/-- A single route whose total demand (100) already exceeds the capacity
limit; nothing can be merged, so it survives unchanged. -/
def exBig : List RouteIn := [⟨0, [7], [(7, 100)]⟩]

/-- A single unremovable route whose stops move away from the hub
(hub-distances 1 then 2), so the final result is not non-increasing. -/
def exMono : List RouteIn := [⟨0, [1, 2], [(1, 50), (2, 50)]⟩]

/-- A single unremovable route listed in inbound order (hub-distances 2 then
1), used to witness the amended monotonicity claim. -/
def exMono2 : List RouteIn := [⟨0, [2, 1], [(2, 50), (1, 50)]⟩]

/-- Route 1 consists of one ignorable stop (demand 2, not faculty); route 2
is a bystander. -/
def exIgn : List RouteIn := [⟨1, [4], [(4, 2)]⟩, ⟨2, [5], [(5, 10)]⟩]

/-! ## Theorems -/

lemma merge_routes_def (input : List RouteIn) (dm : Stop → Stop → ℚ) (college : Stop)
    (faculty : List Stop) (oo : List (RId × List Stop)) :
    merge_routes input dm college faculty oo =
      if (mergeBest input dm college faculty oo).removedCount = 0 then
        ⟨initState input, [], []⟩
      else
        ⟨(mergeBest input dm college faculty oo).state,
         (mergeBest input dm college faculty oo).ops,
         (mergeBest input dm college faculty oo).removed⟩ := rfl

lemma tryLoop_all_ignored (removeId : RId) (led : List (Stop × ℚ)) (dm : Stop → Stop → ℚ)
    (college : Stop) (faculty : List Stop) :
    ∀ (stops : List Stop) (st : List RouteEntry) (ign : ℚ) (ops : List MergeOp),
    (∀ s ∈ stops, (alookup s led).getD 0 ≤ DEMAND_IGNORE_THRESHOLD ∧ s ∉ faculty) →
    tryLoop removeId led dm college faculty stops st ign ops =
      (some (st, ign + (stops.map (fun s => (alookup s led).getD 0)).sum), ops) := by
  intro stops
  induction stops with
  | nil => intro st ign ops _; simp [tryLoop]
  | cons s rest ih =>
    intro st ign ops hall
    have hs := hall s (by simp)
    have hrest : ∀ s ∈ rest, (alookup s led).getD 0 ≤ DEMAND_IGNORE_THRESHOLD ∧ s ∉ faculty :=
      fun x hx => hall x (by simp [hx])
    simp only [tryLoop, if_pos hs, ih st (ign + (alookup s led).getD 0) ops hrest,
      List.map_cons, List.sum_cons]
    ring_nf

/-- C9: a candidate route whose stops are all ignorable (route-specific
demand at or below the ignore threshold, not faculty) is removed iff the sum
of the ignored demands stays within the maximum-ignored-demand budget, and
in that case no insertion is performed (no merge operation is logged). -/
theorem C9_all_ignorable (removeId : RId) (st : List RouteEntry) (dm : Stop → Stop → ℚ)
    (college : Stop) (faculty : List Stop) (oo : List (RId × List Stop)) (e : RouteEntry)
    (hfind : findEntry removeId st = some e)
    (hall : ∀ s ∈ e.stops, (alookup s e.ledger).getD 0 ≤ DEMAND_IGNORE_THRESHOLD ∧ s ∉ faculty) :
    ((try_merge_route removeId st dm college faculty oo).1.isSome ↔
      candIgnoredSum e ≤ MAX_IGNORED_DEMAND) ∧
    (try_merge_route removeId st dm college faculty oo).2 = [] := by
  have h := tryLoop_all_ignored removeId e.ledger dm college faculty e.stops st 0 [] hall
  simp only [try_merge_route, hfind, Option.map_some', Option.getD_some, h, zero_add]
  constructor
  · split_ifs with hgt
    · simp only [Option.isSome_none, Bool.false_eq_true, false_iff, not_le, candIgnoredSum]
      exact hgt
    · simp only [Option.isSome_some, true_iff, candIgnoredSum]
      exact le_of_not_lt hgt
  · split_ifs <;> rfl

/-- C9 witness: removing route 1 of `exIgn` (one stop, demand 2 ≤ threshold,
ignored sum 2 ≤ budget) succeeds with an empty operation log. -/
theorem C9_witness :
    (try_merge_route 1 (initState exIgn) dmEx 0 [] []).1.isSome = true ∧
    (try_merge_route 1 (initState exIgn) dmEx 0 [] []).2 = [] := by
  have h := C9_all_ignorable 1 (initState exIgn) dmEx 0 [] [] ⟨1, [4], 2, [(4, 2)]⟩
    (by decide) (by decide)
  exact ⟨h.1.mpr (by decide), h.2⟩

/-- C8: when the best trial removes zero routes, `merge_routes` reverts to
the original inputs — the final routes and per-route demand ledger are the
input ones, and the final log holds no merge operations and no removals. -/
theorem C8_revert_on_zero (input : List RouteIn) (dm : Stop → Stop → ℚ) (college : Stop)
    (faculty : List Stop) (oo : List (RId × List Stop))
    (h : (mergeBest input dm college faculty oo).removedCount = 0) :
    merge_routes input dm college faculty oo = ⟨initState input, [], []⟩ ∧
    (merge_routes input dm college faculty oo).state.map (fun e => e.stops) =
      input.map (fun r => r.stops) ∧
    (merge_routes input dm college faculty oo).state.map (fun e => e.ledger) =
      input.map (fun r => r.ledger) ∧
    (merge_routes input dm college faculty oo).ops = [] ∧
    (merge_routes input dm college faculty oo).removed = [] := by
  have hm : merge_routes input dm college faculty oo = ⟨initState input, [], []⟩ := by
    rw [merge_routes_def, if_pos h]
  refine ⟨hm, ?_, ?_, ?_, ?_⟩ <;> simp [hm, initState, List.map_map, Function.comp]

/-- C8 witness: on `exBig` (one route, demand 100 at its only stop, no other
route to receive it) every trial fails, the best removal count is 0, and the
result reverts to the input. -/
theorem C8_witness :
    merge_routes exBig dmEx 99 [] [] = ⟨initState exBig, [], []⟩ ∧
    (merge_routes exBig dmEx 99 [] []).ops = [] := by
  have h := C8_revert_on_zero exBig dmEx 99 [] [] (by decide)
  exact ⟨h.1, h.2.2.2.1⟩

/-- C5 counterexample: with canonical order `[1, 2]` recorded for route 0,
the input stop list `[1, 3]` comes back as `[1]` — stop 3 was removed, so
the corrector does not always return exactly the stops of its input. -/
theorem C5_counterexample :
    verify_and_correct_order 0 [1, 3] [(0, [1, 2])] = [1] ∧
    (3 ∈ ([1, 3] : List Stop)) ∧ (3 ∉ ([1] : List Stop)) := by decide

/-- C5 (amended): for a route with a recorded canonical order, the corrector
returns the canonical sequence filtered to the stops present in the input —
it never adds a stop, it removes exactly the input stops that are absent
from the canonical sequence, and when every input stop occurs in the
(duplicate-free) canonical order and the input is duplicate-free, the result
is a permutation (pure reordering) of the input. -/
theorem C5_order_corrector (route_id : RId) (stops canon : List Stop)
    (orders : List (RId × List Stop))
    (hlk : alookup route_id orders = some canon) :
    verify_and_correct_order route_id stops orders =
      canon.filter (fun s => decide (s ∈ stops)) ∧
    (∀ s ∈ verify_and_correct_order route_id stops orders, s ∈ stops) ∧
    (canon.Nodup → stops.Nodup → (∀ s ∈ stops, s ∈ canon) →
      (verify_and_correct_order route_id stops orders).Perm stops) := by
  have heq : verify_and_correct_order route_id stops orders =
      canon.filter (fun s => decide (s ∈ stops)) := by
    simp [verify_and_correct_order, hlk]
  refine ⟨heq, ?_, ?_⟩
  · intro s hs
    rw [heq] at hs
    simpa using (List.of_mem_filter hs)
  · intro hc hn hsub
    rw [heq]
    have h1 : (canon.filter (fun s => decide (s ∈ stops))).Nodup := hc.filter _
    rw [List.perm_ext_iff_of_nodup h1 hn]
    intro a
    simp only [List.mem_filter, decide_eq_true_eq]
    exact ⟨fun h => h.2, fun h => ⟨hsub a h, h⟩⟩

/-- C5 witness: canonical order `[1, 2]`, input `[2, 1]` (all present):
the corrector returns `[1, 2]`, a reordering of the input. -/
theorem C5_witness :
    verify_and_correct_order 0 [2, 1] [(0, [1, 2])] = [1, 2] ∧
    (verify_and_correct_order 0 [2, 1] [(0, [1, 2])]).Perm [2, 1] := by
  have h := C5_order_corrector 0 [2, 1] [1, 2] [(0, [1, 2])] (by decide)
  refine ⟨?_, h.2.2 (by decide) (by decide) (by decide)⟩
  rw [h.1]; decide

lemma posCand_eq_some (dm : Stop → Stop → ℚ) (college s : Stop) (stops : List Stop)
    (i : Nat) (inc : ℚ) :
    posCand dm college s stops i = some inc ↔ admissibleAt dm college s stops i inc := by
  constructor
  · intro h
    unfold posCand at h
    rcases hget : stops.get? i with _ | cur
    · rw [hget] at h; cases h
    · rw [hget] at h
      simp only [] at h
      by_cases hlt : dm s college + MIN_CLOSER_THRESHOLD < dm cur college
      swap
      · rw [if_neg hlt] at h; cases h
      rw [if_pos hlt] at h
      rcases hnxt : stops.get? (i + 1) with _ | nxt
      · rw [hnxt] at h
        simp only [] at h
        by_cases h3 : dm cur s + dm s college - dm cur college < DISTANCE_THRESHOLD
        swap
        · rw [if_neg h3] at h; cases h
        rw [if_pos h3] at h
        injection h with h
        subst h
        refine ⟨cur, hget, hlt, ?_, fun _ => rfl, h3⟩
        intro nxt' hc
        rw [hnxt] at hc
        cases hc
      · rw [hnxt] at h
        simp only [] at h
        by_cases hmid : dm cur college ≥ dm s college ∧ dm s college ≥ dm nxt college
        swap
        · rw [if_neg hmid] at h; cases h
        rw [if_pos hmid] at h
        by_cases h3 : dm cur s + dm s nxt - dm cur nxt < DISTANCE_THRESHOLD
        swap
        · rw [if_neg h3] at h; cases h
        rw [if_pos h3] at h
        injection h with h
        subst h
        refine ⟨cur, hget, hlt, ?_, ?_, h3⟩
        · intro nxt' hc
          rw [hnxt] at hc
          injection hc with hc
          subst hc
          exact ⟨hmid.1, hmid.2, rfl⟩
        · intro hc
          rw [hnxt] at hc
          cases hc
  · rintro ⟨cur, hcur, hlt, hsome, hnone, h3⟩
    unfold posCand
    rw [hcur]
    simp only []
    rw [if_pos hlt]
    rcases hnxt : stops.get? (i + 1) with _ | nxt
    · have h4 := hnone hnxt
      simp only []
      rw [← h4, if_pos h3]
    · obtain ⟨ha, hb, heq⟩ := hsome nxt hnxt
      simp only []
      rw [if_pos ⟨ha, hb⟩, ← heq, if_pos h3]

lemma mem_routeCands (st : List RouteEntry) (removeId : RId) (dm : Stop → Stop → ℚ)
    (college s : Stop) (sd : ℚ) (r : RId) (p : Nat) (inc : ℚ) :
    (r, p, inc) ∈ routeCands st removeId dm college s sd ↔
      ∃ e ∈ st, e.rid = r ∧ r ≠ removeId ∧ e.total + sd ≤ MAX_CAPACITY ∧
        ∃ i, i < e.stops.length ∧ p = i + 1 ∧ posCand dm college s e.stops i = some inc := by
  simp only [routeCands, List.mem_flatMap]
  constructor
  · rintro ⟨e, he, hmem⟩
    split_ifs at hmem with h1 h2
    · cases hmem
    · cases hmem
    · rw [List.mem_filterMap] at hmem
      obtain ⟨i, hi, hmap⟩ := hmem
      rw [Option.map_eq_some'] at hmap
      obtain ⟨inc', hpc, heq⟩ := hmap
      obtain ⟨h1', h2', h3'⟩ : e.rid = r ∧ i + 1 = p ∧ inc' = inc := by
        injection heq with ha hb
        injection hb with hb hc
        exact ⟨ha, hb, hc⟩
      subst h1' h2' h3'
      exact ⟨e, he, rfl, h1, not_lt.mp h2, i, List.mem_range.mp hi, rfl, hpc⟩
  · rintro ⟨e, he, hrid, hne, hcap, i, hi, hp, hpc⟩
    refine ⟨e, he, ?_⟩
    rw [if_neg (by rw [hrid]; exact hne), if_neg (not_lt.mpr hcap)]
    rw [List.mem_filterMap]
    exact ⟨i, List.mem_range.mpr hi, by rw [hpc, hrid, hp]; rfl⟩

lemma foldl_stepBest_spec :
    ∀ (cs : List (RId × Nat × ℚ)) (b : RId × Nat × ℚ),
    ∃ r, cs.foldl stepBest (some b) = some r ∧ r.2.2 ≤ b.2.2 ∧
      (∀ d ∈ cs, r.2.2 ≤ d.2.2) ∧
      (r = b ∨ ∃ i, ∃ h : i < cs.length, r = cs.get ⟨i, h⟩ ∧ r.2.2 < b.2.2 ∧
        ∀ j, ∀ hj : j < cs.length, j < i → r.2.2 < (cs.get ⟨j, hj⟩).2.2) := by
  intro cs
  induction cs with
  | nil => exact fun b => ⟨b, rfl, le_refl _, by simp, Or.inl rfl⟩
  | cons a cs ih =>
    intro b
    by_cases h : a.2.2 < b.2.2
    · obtain ⟨r, heq, hra, hall, hdisj⟩ := ih a
      refine ⟨r, ?_, le_of_lt (lt_of_le_of_lt hra h), ?_, ?_⟩
      · simpa [stepBest, if_pos h] using heq
      · intro d hd
        rcases List.mem_cons.mp hd with rfl | hd
        · exact hra
        · exact hall d hd
      · right
        rcases hdisj with rfl | ⟨i, hi, hri, hrb, hpre⟩
        · exact ⟨0, by simp, rfl, h, fun j hj hji => absurd hji (Nat.not_lt_zero j)⟩
        · refine ⟨i + 1, by simpa using Nat.succ_lt_succ hi, by simpa using hri,
            lt_trans hrb h, ?_⟩
          intro j hj hji
          cases j with
          | zero => simpa using hrb
          | succ j' =>
            have hj' : j' < cs.length := Nat.lt_of_succ_lt_succ hj
            simpa using hpre j' hj' (Nat.lt_of_succ_lt_succ hji)
    · obtain ⟨r, heq, hrb, hall, hdisj⟩ := ih b
      refine ⟨r, ?_, hrb, ?_, ?_⟩
      · simpa [stepBest, if_neg h] using heq
      · intro d hd
        rcases List.mem_cons.mp hd with rfl | hd
        · exact le_trans hrb (not_lt.mp h)
        · exact hall d hd
      · rcases hdisj with rfl | ⟨i, hi, hri, hrb', hpre⟩
        · exact Or.inl rfl
        · right
          refine ⟨i + 1, by simpa using Nat.succ_lt_succ hi, by simpa using hri, hrb', ?_⟩
          intro j hj hji
          cases j with
          | zero => simpa using lt_of_lt_of_le hrb' (not_lt.mp h)
          | succ j' =>
            have hj' : j' < cs.length := Nat.lt_of_succ_lt_succ hj
            simpa using hpre j' hj' (Nat.lt_of_succ_lt_succ hji)

lemma find_best_none_iff (st : List RouteEntry) (removeId : RId) (dm : Stop → Stop → ℚ)
    (college s : Stop) (sd : ℚ) :
    find_best st removeId dm college s sd = none ↔
      routeCands st removeId dm college s sd = [] := by
  unfold find_best
  cases hc : routeCands st removeId dm college s sd with
  | nil => simp
  | cons a cs =>
    simp only [List.foldl_cons]
    have hsb : stepBest none a = some a := rfl
    rw [hsb]
    obtain ⟨r, heq, -⟩ := foldl_stepBest_spec cs a
    rw [heq]
    simp

lemma find_best_some_spec (st : List RouteEntry) (removeId : RId) (dm : Stop → Stop → ℚ)
    (college s : Stop) (sd : ℚ) (c : RId × Nat × ℚ)
    (h : find_best st removeId dm college s sd = some c) :
    c ∈ routeCands st removeId dm college s sd ∧
    (∀ d ∈ routeCands st removeId dm college s sd, c.2.2 ≤ d.2.2) ∧
    (∃ i, ∃ hi : i < (routeCands st removeId dm college s sd).length,
      c = (routeCands st removeId dm college s sd).get ⟨i, hi⟩ ∧
      ∀ j, ∀ hj : j < (routeCands st removeId dm college s sd).length, j < i →
        c.2.2 < ((routeCands st removeId dm college s sd).get ⟨j, hj⟩).2.2) := by
  unfold find_best at h
  rcases hc : routeCands st removeId dm college s sd with _ | ⟨a, cs⟩
  · rw [hc] at h
    exact Option.noConfusion h
  · rw [hc] at h
    simp only [List.foldl_cons] at h
    have hsb : stepBest none a = some a := rfl
    rw [hsb] at h
    obtain ⟨r, heq, hra, hall, hdisj⟩ := foldl_stepBest_spec cs a
    rw [heq] at h
    injection h with h
    rcases hdisj with heqa | ⟨i, hi, hri, hrb, hpre⟩
    · refine ⟨?_, ?_, ?_⟩
      · rw [← h, heqa]; exact List.mem_cons_self a cs
      · intro d hd
        rcases List.mem_cons.mp hd with rfl | hd
        · rw [← h, heqa]
        · rw [← h]; exact hall d hd
      · refine ⟨0, Nat.succ_pos cs.length, ?_, ?_⟩
        · rw [← h, heqa]; rfl
        · intro j hj hji
          exact absurd hji (Nat.not_lt_zero j)
    · refine ⟨?_, ?_, ?_⟩
      · rw [← h, hri]; exact List.mem_cons_of_mem a (cs.get_mem i hi)
      · intro d hd
        rcases List.mem_cons.mp hd with rfl | hd
        · rw [← h]; exact le_of_lt hrb
        · rw [← h]; exact hall d hd
      · refine ⟨i + 1, Nat.succ_lt_succ hi, ?_, ?_⟩
        · rw [← h, hri]; rfl
        · intro j hj hji
          cases j with
          | zero =>
            rw [← h]
            simpa using hrb
          | succ j' =>
            have hj' : j' < cs.length := Nat.lt_of_succ_lt_succ hj
            rw [← h]
            simpa using hpre j' hj' (Nat.lt_of_succ_lt_succ hji)

/-- C6: a candidate insertion is enumerated iff its receiving route is a
surviving, capacity-eligible route and its position satisfies exactly the
three admissibility conditions (minimum-closer margin to the hub, hub-distance
interpolation when a next stop exists, detour cost below the threshold); and
the chosen insertion is an enumerated candidate of globally minimal detour
cost, with ties resolving to the first candidate in the fixed iteration
order (`none` exactly when no candidate exists). -/
theorem C6_insertion_choice (st : List RouteEntry) (removeId : RId) (dm : Stop → Stop → ℚ)
    (college s : Stop) (sd : ℚ) :
    (∀ r p inc, (r, p, inc) ∈ routeCands st removeId dm college s sd ↔
      ∃ e ∈ st, e.rid = r ∧ r ≠ removeId ∧ e.total + sd ≤ MAX_CAPACITY ∧
        ∃ i, i < e.stops.length ∧ p = i + 1 ∧ admissibleAt dm college s e.stops i inc) ∧
    (find_best st removeId dm college s sd = none ↔
      routeCands st removeId dm college s sd = []) ∧
    (∀ r p inc, find_best st removeId dm college s sd = some (r, p, inc) →
      (r, p, inc) ∈ routeCands st removeId dm college s sd ∧
      (∀ d ∈ routeCands st removeId dm college s sd, inc ≤ d.2.2) ∧
      (∃ i, ∃ hi : i < (routeCands st removeId dm college s sd).length,
        (r, p, inc) = (routeCands st removeId dm college s sd).get ⟨i, hi⟩ ∧
        ∀ j, ∀ hj : j < (routeCands st removeId dm college s sd).length, j < i →
          inc < ((routeCands st removeId dm college s sd).get ⟨j, hj⟩).2.2)) := by
  refine ⟨?_, find_best_none_iff st removeId dm college s sd, ?_⟩
  · intro r p inc
    rw [mem_routeCands]
    constructor
    · rintro ⟨e, he, h1, h2, h3, i, hi, hp, hpc⟩
      exact ⟨e, he, h1, h2, h3, i, hi, hp, (posCand_eq_some dm college s e.stops i inc).mp hpc⟩
    · rintro ⟨e, he, h1, h2, h3, i, hi, hp, hadm⟩
      exact ⟨e, he, h1, h2, h3, i, hi, hp, (posCand_eq_some dm college s e.stops i inc).mpr hadm⟩
  · intro r p inc h
    exact find_best_some_spec st removeId dm college s sd (r, p, inc) h

/-- C6 witness: in the state of `exInput`, when removing route 10, stop 1
(demand 4) is assigned to route 20 at position 1 with detour cost 0 — and
that choice is an enumerated admissible candidate. -/
theorem C6_witness :
    ((20 : RId), 1, (0 : ℚ)) ∈ routeCands (initState exInput) 10 dmEx 0 1 4 :=
  ((C6_insertion_choice (initState exInput) 10 dmEx 0 1 4).2.2 20 1 0 (by decide)).1

lemma find_best_receiving (st : List RouteEntry) (removeId : RId) (dm : Stop → Stop → ℚ)
    (college s : Stop) (sd : ℚ) (r : RId) (p : Nat) (inc : ℚ)
    (h : find_best st removeId dm college s sd = some (r, p, inc)) :
    ∃ e ∈ st, e.rid = r ∧ r ≠ removeId ∧ e.total + sd ≤ MAX_CAPACITY ∧
      ∃ i, i < e.stops.length ∧ p = i + 1 ∧ posCand dm college s e.stops i = some inc :=
  (mem_routeCands st removeId dm college s sd r p inc).mp
    (find_best_some_spec st removeId dm college s sd (r, p, inc) h).1

lemma tryLoop_ops (removeId : RId) (led : List (Stop × ℚ)) (dm : Stop → Stop → ℚ)
    (college : Stop) (faculty : List Stop) :
    ∀ (stops : List Stop) (st : List RouteEntry) (ign : ℚ) (ops : List MergeOp),
    (∀ op ∈ ops, op.fromRoute = removeId ∧ 1 ≤ op.insertPos) →
    ∀ op ∈ (tryLoop removeId led dm college faculty stops st ign ops).2,
      op.fromRoute = removeId ∧ 1 ≤ op.insertPos := by
  intro stops
  induction stops with
  | nil => intro st ign ops hops; simpa [tryLoop] using hops
  | cons s rest ih =>
    intro st ign ops hops
    simp only [tryLoop]
    split_ifs with hig
    · exact ih st (ign + (alookup s led).getD 0) ops hops
    · rcases hfb : find_best st removeId dm college s ((alookup s led).getD 0)
        with _ | ⟨r, p, inc⟩
      · simpa using hops
      · simp only []
        refine ih _ ign _ ?_
        intro op hop
        rcases List.mem_append.mp hop with hop | hop
        · exact hops op hop
        · rcases List.mem_singleton.mp hop with rfl
          obtain ⟨e, -, -, -, -, i, -, hp, -⟩ :=
            find_best_receiving st removeId dm college s ((alookup s led).getD 0) r p inc hfb
          exact ⟨rfl, by rw [hp]; exact Nat.succ_le_succ (Nat.zero_le i)⟩

lemma try_ops (removeId : RId) (st : List RouteEntry) (dm : Stop → Stop → ℚ)
    (college : Stop) (faculty : List Stop) (oo : List (RId × List Stop)) :
    ∀ op ∈ (try_merge_route removeId st dm college faculty oo).2,
      op.fromRoute = removeId ∧ 1 ≤ op.insertPos := by
  have h := tryLoop_ops removeId (((findEntry removeId st).map (fun e => e.ledger)).getD [])
    dm college faculty (((findEntry removeId st).map (fun e => e.stops)).getD []) st 0 []
    (by intro op hop; cases hop)
  simp only [try_merge_route]
  obtain ⟨o, ops2, htl⟩ : ∃ o ops2,
      tryLoop removeId (((findEntry removeId st).map (fun e => e.ledger)).getD [])
        dm college faculty (((findEntry removeId st).map (fun e => e.stops)).getD []) st 0 [] =
        (o, ops2) := ⟨_, _, rfl⟩
  rw [htl] at h ⊢
  rcases o with _ | ⟨st', ign⟩
  · simpa using h
  · simp only []
    split_ifs <;> simpa using h

lemma runT_ops (dm : Stop → Stop → ℚ) (college : Stop) (faculty : List Stop)
    (oo : List (RId × List Stop)) :
    ∀ (ms : List RId) (st : List RouteEntry),
    ∀ op ∈ (runT dm college faculty oo st ms).ops, 1 ≤ op.insertPos := by
  intro ms
  induction ms with
  | nil => intro st op hop; cases hop
  | cons m ms ih =>
    intro st
    simp only [runT]
    split_ifs with hp
    · rcases hres : (try_merge_route m st dm college faculty oo).1 with _ | st'
      · simp only []
        intro op hop
        rcases List.mem_append.mp hop with hop | hop
        · exact (try_ops m st dm college faculty oo op hop).2
        · exact ih st op hop
      · simp only []
        intro op hop
        rcases List.mem_append.mp hop with hop | hop
        · exact (try_ops m st dm college faculty oo op hop).2
        · exact ih st' op hop
    · exact ih st

lemma foldl_stepTrial_eq_or_mem :
    ∀ (ts : List Trial) (b : Trial), ts.foldl stepTrial b = b ∨ ts.foldl stepTrial b ∈ ts := by
  intro ts
  induction ts with
  | nil => exact fun b => Or.inl rfl
  | cons t ts ih =>
    intro b
    simp only [List.foldl_cons, stepTrial]
    split_ifs with h
    · rcases ih t with heq | hmem
      · exact Or.inr (by rw [heq]; exact List.mem_cons_self t ts)
      · exact Or.inr (List.mem_cons_of_mem t hmem)
    · rcases ih b with heq | hmem
      · exact Or.inl heq
      · exact Or.inr (List.mem_cons_of_mem t hmem)

/-- C10: every merge operation recorded in the final log inserts at position
at least 1: a relocated stop is always placed after some existing stop of
the receiving route, never as its new first stop. -/
theorem C10_insert_positions (input : List RouteIn) (dm : Stop → Stop → ℚ) (college : Stop)
    (faculty : List Stop) (oo : List (RId × List Stop)) :
    ∀ op ∈ (merge_routes input dm college faculty oo).ops, 1 ≤ op.insertPos := by
  rw [merge_routes_def]
  split_ifs with h
  · intro op hop; cases hop
  · intro op hop
    simp only [] at hop
    rcases foldl_stepTrial_eq_or_mem (mergeTrials input dm college faculty oo)
        ⟨initState input, 0, [], []⟩ with heq | hmem
    · rw [mergeBest] at hop
      rw [heq] at hop
      cases hop
    · rw [mergeBest] at hop
      obtain ⟨c, -, hc⟩ := List.mem_map.mp hmem
      rw [← hc] at hop
      exact runT_ops dm college faculty oo c (initState input) op hop

/-- C10 witness: the first merge operation of the `exInput` run (stop 1 of
route 10 into route 20) has insertion position 1 ≥ 1. -/
theorem C10_witness : 1 ≤ (⟨10, 20, 1, 4, 1⟩ : MergeOp).insertPos :=
  C10_insert_positions exInput dmEx 0 [] [] ⟨10, 20, 1, 4, 1⟩ (by decide)

lemma combos_sound : ∀ (xs : List RId) (k : Nat) (l : List RId),
    l ∈ combos k xs → l.length = k ∧ l.Sublist xs := by
  intro xs
  induction xs with
  | nil =>
    intro k l hl
    cases k with
    | zero =>
      rcases List.mem_singleton.mp hl with rfl
      exact ⟨rfl, List.Sublist.refl []⟩
    | succ k => cases hl
  | cons x xs ih =>
    intro k l hl
    cases k with
    | zero =>
      rcases List.mem_singleton.mp hl with rfl
      exact ⟨rfl, List.nil_sublist _⟩
    | succ k =>
      rcases List.mem_append.mp hl with hl | hl
      · obtain ⟨l', hl', rfl⟩ := List.mem_map.mp hl
        obtain ⟨hlen, hsub⟩ := ih k l' hl'
        exact ⟨by simp [hlen], hsub.cons₂ x⟩
      · obtain ⟨hlen, hsub⟩ := ih (k + 1) l hl
        exact ⟨hlen, hsub.cons x⟩

lemma combos_complete : ∀ {l xs : List RId}, l.Sublist xs → l ∈ combos l.length xs := by
  intro l xs h
  induction h with
  | slnil => simp [combos]
  | @cons l' xs' x h ih =>
    cases hl : l' with
    | nil => simp [combos]
    | cons a t =>
      rw [hl] at ih
      simp only [List.length_cons, combos]
      exact List.mem_append.mpr (Or.inr ih)
  | @cons₂ l' xs' x h ih =>
    simp only [List.length_cons, combos]
    exact List.mem_append.mpr (Or.inl (List.mem_map.mpr ⟨l', ih, rfl⟩))

lemma mem_allCombos (ids : List RId) (l : List RId) :
    l ∈ allCombos ids ↔ l ≠ [] ∧ l.Sublist ids := by
  constructor
  · intro h
    obtain ⟨k, -, hk⟩ := List.mem_flatMap.mp h
    obtain ⟨hlen, hsub⟩ := combos_sound ids (k + 1) l hk
    exact ⟨(by intro hnil; rw [hnil] at hlen; cases hlen), hsub⟩
  · rintro ⟨hne, hsub⟩
    have hpos : 0 < l.length := List.length_pos.mpr hne
    have hle : l.length ≤ ids.length := hsub.length_le
    refine List.mem_flatMap.mpr ⟨l.length - 1, ?_, ?_⟩
    · exact List.mem_range.mpr (by omega)
    · have : l.length - 1 + 1 = l.length := by omega
      rw [this]
      exact combos_complete hsub

lemma pairwise_len_of_const (k : Nat) :
    ∀ (cl : List (List RId)), (∀ a ∈ cl, a.length = k) →
    cl.Pairwise (fun a b => a.length ≤ b.length) := by
  intro cl
  induction cl with
  | nil => intro _; exact List.Pairwise.nil
  | cons c cl ihc =>
    intro hcl
    refine List.Pairwise.cons ?_ (ihc fun a ha => hcl a (List.mem_cons_of_mem c ha))
    intro b hb
    rw [hcl c (List.mem_cons_self c cl), hcl b (List.mem_cons_of_mem c hb)]

lemma allCombos_length_sorted (ids : List RId) :
    (allCombos ids).Pairwise (fun a b => a.length ≤ b.length) := by
  rw [allCombos, List.pairwise_flatMap]
  constructor
  · intro k _
    exact pairwise_len_of_const (k + 1) _ (fun a ha => (combos_sound ids (k + 1) a ha).1)
  · have hpw := List.pairwise_lt_range (n := ids.length)
    refine List.Pairwise.imp ?_ hpw
    intro k1 k2 hlt x hx y hy
    rw [(combos_sound ids (k1 + 1) x hx).1, (combos_sound ids (k2 + 1) y hy).1]
    omega

lemma foldl_stepTrial_spec :
    ∀ (ts : List Trial) (b : Trial),
    (∀ t ∈ ts, t.removedCount ≤ (ts.foldl stepTrial b).removedCount) ∧
    b.removedCount ≤ (ts.foldl stepTrial b).removedCount ∧
    (ts.foldl stepTrial b = b ∨ ∃ i, ∃ h : i < ts.length,
      ts.foldl stepTrial b = ts.get ⟨i, h⟩ ∧
      b.removedCount < (ts.foldl stepTrial b).removedCount ∧
      ∀ j, ∀ hj : j < ts.length, j < i →
        (ts.get ⟨j, hj⟩).removedCount < (ts.foldl stepTrial b).removedCount) := by
  intro ts
  induction ts with
  | nil =>
    intro b
    exact ⟨by simp, le_refl _, Or.inl rfl⟩
  | cons t ts ih =>
    intro b
    simp only [List.foldl_cons, stepTrial]
    split_ifs with h
    · obtain ⟨hall, hbt, hdisj⟩ := ih t
      refine ⟨?_, le_of_lt (lt_of_lt_of_le h hbt), ?_⟩
      · intro t' ht'
        rcases List.mem_cons.mp ht' with rfl | ht'
        · exact hbt
        · exact hall t' ht'
      · rcases hdisj with heq | ⟨i, hi, heq, hlt, hpre⟩
        · right
          refine ⟨0, Nat.succ_pos ts.length, by simpa using heq, by rw [heq]; exact h, ?_⟩
          intro j hj hji
          exact absurd hji (Nat.not_lt_zero j)
        · right
          refine ⟨i + 1, Nat.succ_lt_succ hi, by simpa using heq, lt_trans h hlt, ?_⟩
          intro j hj hji
          cases j with
          | zero => simpa using hlt
          | succ j' =>
            have hj' : j' < ts.length := Nat.lt_of_succ_lt_succ hj
            simpa using hpre j' hj' (Nat.lt_of_succ_lt_succ hji)
    · obtain ⟨hall, hbb, hdisj⟩ := ih b
      refine ⟨?_, hbb, ?_⟩
      · intro t' ht'
        rcases List.mem_cons.mp ht' with rfl | ht'
        · exact le_trans (not_lt.mp h) hbb
        · exact hall t' ht'
      · rcases hdisj with heq | ⟨i, hi, heq, hlt, hpre⟩
        · exact Or.inl heq
        · right
          refine ⟨i + 1, Nat.succ_lt_succ hi, by simpa using heq, hlt, ?_⟩
          intro j hj hji
          cases j with
          | zero => simpa using lt_of_le_of_lt (not_lt.mp h) hlt
          | succ j' =>
            have hj' : j' < ts.length := Nat.lt_of_succ_lt_succ hj
            simpa using hpre j' hj' (Nat.lt_of_succ_lt_succ hji)

/-- C7: the subset search enumerates exactly the nonempty subsequences of
the route-id list (all combination sizes 1..n), in size-ascending order;
every trial runs from the unmodified initial state; the retained best trial
has the maximum removal count and is the first trial achieving it (an
earlier-indexed trial always has a strictly smaller count, so a later trial
with an equal count never replaces the best); and `merge_routes` returns the
best trial's state (or reverts when the best count is 0). -/
theorem C7_subset_search (input : List RouteIn) (dm : Stop → Stop → ℚ) (college : Stop)
    (faculty : List Stop) (oo : List (RId × List Stop)) :
    (∀ l, l ∈ allCombos (input.map (fun r => r.rid)) ↔
      l ≠ [] ∧ l.Sublist (input.map (fun r => r.rid))) ∧
    (allCombos (input.map (fun r => r.rid))).Pairwise (fun a b => a.length ≤ b.length) ∧
    mergeTrials input dm college faculty oo =
      (allCombos (input.map (fun r => r.rid))).map
        (fun c => runT dm college faculty oo (initState input) c) ∧
    (∀ t ∈ mergeTrials input dm college faculty oo,
      t.removedCount ≤ (mergeBest input dm college faculty oo).removedCount) ∧
    (mergeBest input dm college faculty oo = ⟨initState input, 0, [], []⟩ ∨
      ∃ i, ∃ h : i < (mergeTrials input dm college faculty oo).length,
        mergeBest input dm college faculty oo =
          (mergeTrials input dm college faculty oo).get ⟨i, h⟩ ∧
        ∀ j, ∀ hj : j < (mergeTrials input dm college faculty oo).length, j < i →
          ((mergeTrials input dm college faculty oo).get ⟨j, hj⟩).removedCount <
            (mergeBest input dm college faculty oo).removedCount) ∧
    merge_routes input dm college faculty oo =
      (if (mergeBest input dm college faculty oo).removedCount = 0 then
        ⟨initState input, [], []⟩
      else
        ⟨(mergeBest input dm college faculty oo).state,
         (mergeBest input dm college faculty oo).ops,
         (mergeBest input dm college faculty oo).removed⟩) := by
  obtain ⟨hall, hb, hdisj⟩ := foldl_stepTrial_spec (mergeTrials input dm college faculty oo)
    ⟨initState input, 0, [], []⟩
  refine ⟨mem_allCombos _, allCombos_length_sorted _, rfl, hall, ?_,
    merge_routes_def input dm college faculty oo⟩
  rcases hdisj with heq | ⟨i, hi, heq, -, hpre⟩
  · exact Or.inl heq
  · exact Or.inr ⟨i, hi, heq, hpre⟩

/-- C7 witness: `[10]` is an enumerated combination of the `exInput`
route-id list, and the trial attempting only route 30 (which fails) has a
removal count bounded by the best one found. -/
theorem C7_witness :
    [10] ∈ allCombos [10, 20, 30] ∧
    (runT dmEx 0 [] [] (initState exInput) [30]).removedCount ≤
      (mergeBest exInput dmEx 0 [] []).removedCount := by
  have h := C7_subset_search exInput dmEx 0 [] []
  constructor
  · exact (h.1 [10]).mpr ⟨(by intro hc; cases hc), by decide⟩
  · exact h.2.2.2.1 _ (by decide)

lemma nodup_key_unique : ∀ (st : List RouteEntry),
    (st.map (fun e => e.rid)).Nodup →
    ∀ e ∈ st, ∀ e' ∈ st, e.rid = e'.rid → e = e' := by
  intro st
  induction st with
  | nil => intro _ e he; cases he
  | cons x rest ih =>
    intro hnd e he e' he' heq
    rw [List.map_cons, List.nodup_cons] at hnd
    rcases List.mem_cons.mp he with he1 | he1
    · rcases List.mem_cons.mp he' with he2 | he2
      · rw [he1, he2]
      · exfalso
        have hm : e'.rid ∈ rest.map (fun e => e.rid) := List.mem_map.mpr ⟨e', he2, rfl⟩
        rw [← heq, he1] at hm
        exact hnd.1 hm
    · rcases List.mem_cons.mp he' with he2 | he2
      · exfalso
        have hm : e.rid ∈ rest.map (fun e => e.rid) := List.mem_map.mpr ⟨e, he1, rfl⟩
        rw [heq, he2] at hm
        exact hnd.1 hm
      · exact ih hnd.2 e he1 e' he2 heq

lemma applyInsert_rids (st : List RouteEntry) (r : RId) (p : Nat) (s : Stop) (d : ℚ) :
    (applyInsert st r p s d).map (fun e => e.rid) = st.map (fun e => e.rid) := by
  unfold applyInsert
  rw [List.map_map]
  apply List.map_congr_left
  intro e _
  by_cases h : e.rid = r <;> simp [h]

lemma correctAll_rids (oo : List (RId × List Stop)) (st : List RouteEntry) :
    (correctAll oo st).map (fun e => e.rid) = st.map (fun e => e.rid) := by
  unfold correctAll
  rw [List.map_map]
  apply List.map_congr_left
  intro e _
  by_cases h : (alookup e.rid oo).isSome <;> simp [h]

lemma bumpLedger_sum (s : Stop) (d : ℚ) :
    ∀ (l : List (Stop × ℚ)), ledgerSum (bumpLedger s d l) = ledgerSum l + d := by
  intro l
  induction l with
  | nil => simp [bumpLedger, ledgerSum]
  | cons kv rest ih =>
    rcases kv with ⟨k, v⟩
    by_cases h : k = s
    · simp only [bumpLedger, if_pos h, ledgerSum, List.map_cons, List.sum_cons]
      ring
    · simp only [bumpLedger, if_neg h, ledgerSum, List.map_cons, List.sum_cons] at ih ⊢
      rw [ih]
      ring

lemma applyInsert_CapInv (st : List RouteEntry) (r : RId) (p : Nat) (s : Stop) (d : ℚ)
    (hinv : CapInv st) (hex : ∃ e₀ ∈ st, e₀.rid = r ∧ e₀.total + d ≤ MAX_CAPACITY) :
    CapInv (applyInsert st r p s d) := by
  obtain ⟨hnd, hall⟩ := hinv
  obtain ⟨e₀, he₀, hr, hcap⟩ := hex
  constructor
  · rw [applyInsert_rids]; exact hnd
  · intro e he
    obtain ⟨e₁, he₁, rfl⟩ := List.mem_map.mp he
    by_cases h : e₁.rid = r
    · have heq : e₁ = e₀ := nodup_key_unique st hnd e₁ he₁ e₀ he₀ (h.trans hr.symm)
      simp only [if_pos h]
      refine ⟨?_, ?_⟩
      · show e₁.total + d = ledgerSum (bumpLedger s d e₁.ledger)
        rw [bumpLedger_sum, (hall e₁ he₁).1]
      · show e₁.total + d ≤ MAX_CAPACITY
        rw [heq]
        exact hcap
    · simp only [if_neg h]
      exact hall e₁ he₁

lemma tryLoop_CapInv (removeId : RId) (led : List (Stop × ℚ)) (dm : Stop → Stop → ℚ)
    (college : Stop) (faculty : List Stop) :
    ∀ (stops : List Stop) (st : List RouteEntry) (ign : ℚ) (ops : List MergeOp)
      (st' : List RouteEntry) (ign' : ℚ),
    CapInv st →
    (tryLoop removeId led dm college faculty stops st ign ops).1 = some (st', ign') →
    CapInv st' := by
  intro stops
  induction stops with
  | nil =>
    intro st ign ops st' ign' hinv h
    simp only [tryLoop] at h
    injection h with h
    injection h with h1 h2
    rw [← h1]
    exact hinv
  | cons s rest ih =>
    intro st ign ops st' ign' hinv h
    simp only [tryLoop] at h
    split_ifs at h with hig
    · exact ih st (ign + (alookup s led).getD 0) ops st' ign' hinv h
    · rcases hfb : find_best st removeId dm college s ((alookup s led).getD 0)
        with _ | ⟨r, p, inc⟩
      · rw [hfb] at h; cases h
      · rw [hfb] at h
        simp only [] at h
        refine ih _ ign _ st' ign' ?_ h
        obtain ⟨e, he, hrid, -, hcap, -⟩ :=
          find_best_receiving st removeId dm college s ((alookup s led).getD 0) r p inc hfb
        exact applyInsert_CapInv st r p s ((alookup s led).getD 0) hinv ⟨e, he, hrid, hcap⟩

lemma eraseEntry_CapInv (r : RId) (st : List RouteEntry) (hinv : CapInv st) :
    CapInv (eraseEntry r st) := by
  obtain ⟨hnd, hall⟩ := hinv
  constructor
  · exact List.Nodup.sublist ((List.filter_sublist st).map (fun e => e.rid)) hnd
  · intro e he
    exact hall e ((List.filter_sublist st).subset he)

lemma correctAll_CapInv (oo : List (RId × List Stop)) (st : List RouteEntry)
    (hinv : CapInv st) : CapInv (correctAll oo st) := by
  obtain ⟨hnd, hall⟩ := hinv
  constructor
  · rw [correctAll_rids]; exact hnd
  · intro e he
    obtain ⟨e₁, he₁, rfl⟩ := List.mem_map.mp he
    by_cases h : (alookup e₁.rid oo).isSome <;> simp only [if_pos, if_neg, h, if_true, if_false]
    · exact hall e₁ he₁
    · exact hall e₁ he₁

lemma try_CapInv (removeId : RId) (st : List RouteEntry) (dm : Stop → Stop → ℚ)
    (college : Stop) (faculty : List Stop) (oo : List (RId × List Stop))
    (st' : List RouteEntry) (hinv : CapInv st)
    (h : (try_merge_route removeId st dm college faculty oo).1 = some st') : CapInv st' := by
  simp only [try_merge_route] at h
  obtain ⟨o, ops2, htl⟩ : ∃ o ops2,
      tryLoop removeId (((findEntry removeId st).map (fun e => e.ledger)).getD [])
        dm college faculty (((findEntry removeId st).map (fun e => e.stops)).getD []) st 0 [] =
        (o, ops2) := ⟨_, _, rfl⟩
  rw [htl] at h
  rcases o with _ | ⟨stm, ign⟩
  · cases h
  · simp only [] at h
    split_ifs at h with hig
    have heq := Option.some.inj h
    rw [← heq]
    have h1 : CapInv stm := tryLoop_CapInv removeId _ dm college faculty _ st 0 [] stm ign hinv
      (by rw [htl])
    exact correctAll_CapInv oo _ (eraseEntry_CapInv removeId stm h1)

lemma runT_CapInv (dm : Stop → Stop → ℚ) (college : Stop) (faculty : List Stop)
    (oo : List (RId × List Stop)) :
    ∀ (ms : List RId) (st : List RouteEntry), CapInv st →
    CapInv (runT dm college faculty oo st ms).state := by
  intro ms
  induction ms with
  | nil => intro st hinv; exact hinv
  | cons m ms ih =>
    intro st hinv
    simp only [runT]
    split_ifs with hp
    · rcases hres : (try_merge_route m st dm college faculty oo).1 with _ | st'
      · exact ih st hinv
      · exact ih st' (try_CapInv m st dm college faculty oo st' hinv hres)
    · exact ih st hinv

lemma initState_CapInv (input : List RouteIn)
    (hnd : (input.map (fun r => r.rid)).Nodup)
    (hcap : ∀ r ∈ input, ledgerSum r.ledger ≤ MAX_CAPACITY) : CapInv (initState input) := by
  constructor
  · rw [initState, List.map_map]
    exact hnd
  · intro e he
    obtain ⟨r, hr, rfl⟩ := List.mem_map.mp he
    exact ⟨rfl, hcap r hr⟩

/-- C1 (amended): provided every input route's ledger total is within the
capacity limit (and route ids are unique, as dictionary keys are), every
route in the final result of `merge_routes` has ledger total at most the
capacity limit; and unconditionally, `find_best` only ever selects a
receiving route whose running total plus the stop's demand stays within the
capacity limit. -/
theorem C1_capacity_limit (input : List RouteIn) (dm : Stop → Stop → ℚ) (college : Stop)
    (faculty : List Stop) (oo : List (RId × List Stop))
    (hnd : (input.map (fun r => r.rid)).Nodup)
    (hcap : ∀ r ∈ input, ledgerSum r.ledger ≤ MAX_CAPACITY) :
    (∀ e ∈ (merge_routes input dm college faculty oo).state,
      ledgerSum e.ledger ≤ MAX_CAPACITY) ∧
    (∀ (st : List RouteEntry) (removeId : RId) (s : Stop) (sd : ℚ) (r : RId) (p : Nat) (inc : ℚ),
      find_best st removeId dm college s sd = some (r, p, inc) →
      ∃ e ∈ st, e.rid = r ∧ e.total + sd ≤ MAX_CAPACITY) := by
  have hinit : CapInv (initState input) := initState_CapInv input hnd hcap
  constructor
  · have hfinal : CapInv (merge_routes input dm college faculty oo).state := by
      rw [merge_routes_def]
      split_ifs with h
      · exact hinit
      · simp only []
        rcases foldl_stepTrial_eq_or_mem (mergeTrials input dm college faculty oo)
            ⟨initState input, 0, [], []⟩ with heq | hmem
        · rw [mergeBest, heq]
          exact hinit
        · rw [mergeBest]
          obtain ⟨c, -, hc⟩ := List.mem_map.mp hmem
          rw [← hc]
          exact runT_CapInv dm college faculty oo c (initState input) hinit
    intro e he
    obtain ⟨-, hall⟩ := hfinal
    obtain ⟨h1, h2⟩ := hall e he
    rw [← h1]
    exact h2
  · intro st removeId s sd r p inc h
    obtain ⟨e, he, hrid, -, hc, -⟩ := find_best_receiving st removeId dm college s sd r p inc h
    exact ⟨e, he, hrid, hc⟩

lemma chain_pyInsert (R : Stop → Stop → Prop) :
    ∀ (l : List Stop) (i : Nat) (cur s : Stop),
    l.Chain' R → l.get? i = some cur → R cur s →
    (∀ n, l.get? (i + 1) = some n → R s n) →
    (pyInsert (i + 1) s l).Chain' R := by
  intro l
  induction l with
  | nil => intro i cur s _ hget; cases hget
  | cons x xs ih =>
    intro i cur s hch hget hcs hnext
    cases i with
    | zero =>
      have hx : cur = x := by
        injection hget with h
        exact h.symm
      subst hx
      cases xs with
      | nil =>
        show List.Chain' R [cur, s]
        exact List.chain'_pair.mpr hcs
      | cons y ys =>
        show List.Chain' R (cur :: s :: y :: ys)
        have hsy : R s y := hnext y rfl
        rw [List.chain'_cons] at hch
        rw [List.chain'_cons, List.chain'_cons]
        exact ⟨hcs, hsy, hch.2⟩
    | succ j =>
      show List.Chain' R (x :: pyInsert (j + 1) s xs)
      have hget' : xs.get? j = some cur := hget
      have hnext' : ∀ n, xs.get? (j + 1) = some n → R s n := fun n hn => hnext n hn
      cases xs with
      | nil => cases hget'
      | cons z zs =>
        have hch' : (z :: zs).Chain' R := (List.chain'_cons.mp hch).2
        have hxz : R x z := (List.chain'_cons.mp hch).1
        have htail := ih j cur s hch' hget' hcs hnext'
        rw [List.chain'_cons']
        refine ⟨?_, htail⟩
        intro b hb
        have hhead : (pyInsert (j + 1) s (z :: zs)).head? = some z := by
          cases j <;> rfl
        rw [hhead] at hb
        injection hb with hb
        rw [← hb]
        exact hxz

lemma verify_chain (dm : Stop → Stop → ℚ) (college : Stop) (rid : RId) (stops : List Stop)
    (oo : List (RId × List Stop)) (canon : List Stop)
    (hlk : alookup rid oo = some canon) (hc : nonIncTo dm college canon) :
    nonIncTo dm college (verify_and_correct_order rid stops oo) := by
  letI : IsTrans Stop (fun a b => dm b college ≤ dm a college) :=
    ⟨fun a b c hab hbc => le_trans hbc hab⟩
  unfold verify_and_correct_order
  rw [hlk]
  exact List.Chain'.sublist hc (List.filter_sublist canon)

lemma correctAll_ChainInv (dm : Stop → Stop → ℚ) (college : Stop)
    (oo : List (RId × List Stop)) (st : List RouteEntry)
    (horders : ∀ rid l, alookup rid oo = some l → nonIncTo dm college l)
    (hinv : ChainInv dm college st) : ChainInv dm college (correctAll oo st) := by
  obtain ⟨hnd, hall⟩ := hinv
  constructor
  · rw [correctAll_rids]; exact hnd
  · intro e he
    obtain ⟨e₁, he₁, rfl⟩ := List.mem_map.mp he
    by_cases h : (alookup e₁.rid oo).isSome
    · simp only [if_pos h]
      obtain ⟨canon, hcanon⟩ := Option.isSome_iff_exists.mp h
      exact verify_chain dm college e₁.rid e₁.stops oo canon hcanon
        (horders e₁.rid canon hcanon)
    · simp only [if_neg h]
      exact hall e₁ he₁

lemma eraseEntry_ChainInv (dm : Stop → Stop → ℚ) (college : Stop) (r : RId)
    (st : List RouteEntry) (hinv : ChainInv dm college st) :
    ChainInv dm college (eraseEntry r st) := by
  obtain ⟨hnd, hall⟩ := hinv
  exact ⟨List.Nodup.sublist ((List.filter_sublist st).map (fun e => e.rid)) hnd,
    fun e he => hall e ((List.filter_sublist st).subset he)⟩

lemma applyInsert_ChainInv (dm : Stop → Stop → ℚ) (college : Stop)
    (st : List RouteEntry) (removeId : RId) (r : RId) (p : Nat) (s : Stop) (sd inc : ℚ)
    (hinv : ChainInv dm college st)
    (hfb : find_best st removeId dm college s sd = some (r, p, inc)) :
    ChainInv dm college (applyInsert st r p s sd) := by
  obtain ⟨hnd, hall⟩ := hinv
  obtain ⟨e₀, he₀, hrid, -, -, i, hilen, hp, hpc⟩ :=
    find_best_receiving st removeId dm college s sd r p inc hfb
  obtain ⟨cur, hcur, hlt, hsome, -, -⟩ := (posCand_eq_some dm college s e₀.stops i inc).mp hpc
  constructor
  · rw [applyInsert_rids]; exact hnd
  · intro e he
    obtain ⟨e₁, he₁, rfl⟩ := List.mem_map.mp he
    by_cases h : e₁.rid = r
    · have heq : e₁ = e₀ := nodup_key_unique st hnd e₁ he₁ e₀ he₀ (h.trans hrid.symm)
      subst heq
      simp only [if_pos h]
      show nonIncTo dm college (pyInsert p s e₁.stops)
      rw [hp]
      refine chain_pyInsert _ e₁.stops i cur s (hall e₁ he₁) hcur ?_ ?_
      · have h1 : dm s college ≤ dm s college + MIN_CLOSER_THRESHOLD := by
          rw [MIN_CLOSER_THRESHOLD]
          norm_num
        exact le_of_lt (lt_of_le_of_lt h1 hlt)
      · intro n hn
        exact (hsome n hn).2.1
    · simp only [if_neg h]
      exact hall e₁ he₁

lemma tryLoop_ChainInv (dm : Stop → Stop → ℚ) (college : Stop) (removeId : RId)
    (led : List (Stop × ℚ)) (faculty : List Stop) :
    ∀ (stops : List Stop) (st : List RouteEntry) (ign : ℚ) (ops : List MergeOp)
      (st' : List RouteEntry) (ign' : ℚ),
    ChainInv dm college st →
    (tryLoop removeId led dm college faculty stops st ign ops).1 = some (st', ign') →
    ChainInv dm college st' := by
  intro stops
  induction stops with
  | nil =>
    intro st ign ops st' ign' hinv h
    simp only [tryLoop] at h
    injection h with h
    injection h with h1 h2
    rw [← h1]
    exact hinv
  | cons s rest ih =>
    intro st ign ops st' ign' hinv h
    simp only [tryLoop] at h
    split_ifs at h with hig
    · exact ih st (ign + (alookup s led).getD 0) ops st' ign' hinv h
    · rcases hfb : find_best st removeId dm college s ((alookup s led).getD 0)
        with _ | ⟨r, p, inc⟩
      · rw [hfb] at h; cases h
      · rw [hfb] at h
        simp only [] at h
        exact ih _ ign _ st' ign'
          (applyInsert_ChainInv dm college st removeId r p s _ inc hinv hfb) h

lemma try_ChainInv (dm : Stop → Stop → ℚ) (college : Stop) (removeId : RId)
    (st : List RouteEntry) (faculty : List Stop) (oo : List (RId × List Stop))
    (st' : List RouteEntry)
    (horders : ∀ rid l, alookup rid oo = some l → nonIncTo dm college l)
    (hinv : ChainInv dm college st)
    (h : (try_merge_route removeId st dm college faculty oo).1 = some st') :
    ChainInv dm college st' := by
  simp only [try_merge_route] at h
  obtain ⟨o, ops2, htl⟩ : ∃ o ops2,
      tryLoop removeId (((findEntry removeId st).map (fun e => e.ledger)).getD [])
        dm college faculty (((findEntry removeId st).map (fun e => e.stops)).getD []) st 0 [] =
        (o, ops2) := ⟨_, _, rfl⟩
  rw [htl] at h
  rcases o with _ | ⟨stm, ign⟩
  · cases h
  · simp only [] at h
    split_ifs at h with hig
    have heq := Option.some.inj h
    rw [← heq]
    have h1 : ChainInv dm college stm := tryLoop_ChainInv dm college removeId _ _ _ st 0 []
      stm ign hinv (by rw [htl])
    exact correctAll_ChainInv dm college oo _ horders
      (eraseEntry_ChainInv dm college removeId stm h1)

lemma runT_ChainInv (dm : Stop → Stop → ℚ) (college : Stop) (faculty : List Stop)
    (oo : List (RId × List Stop))
    (horders : ∀ rid l, alookup rid oo = some l → nonIncTo dm college l) :
    ∀ (ms : List RId) (st : List RouteEntry), ChainInv dm college st →
    ChainInv dm college (runT dm college faculty oo st ms).state := by
  intro ms
  induction ms with
  | nil => intro st hinv; exact hinv
  | cons m ms ih =>
    intro st hinv
    simp only [runT]
    split_ifs with hp
    · rcases hres : (try_merge_route m st dm college faculty oo).1 with _ | st'
      · exact ih st hinv
      · exact ih st' (try_ChainInv dm college m st faculty oo st' horders hinv hres)
    · exact ih st hinv

/-- C4 (amended): provided every input route's stop sequence is
non-increasing in hub-distance, every recorded canonical order is
non-increasing in hub-distance, and route ids are distinct, every route in
the final result of `merge_routes` has a non-increasing hub-distance
sequence along its stop order. -/
theorem C4_directional_monotonicity (input : List RouteIn) (dm : Stop → Stop → ℚ)
    (college : Stop) (faculty : List Stop) (oo : List (RId × List Stop))
    (hnd : (input.map (fun r => r.rid)).Nodup)
    (hmono : ∀ r ∈ input, nonIncTo dm college r.stops)
    (horders : ∀ rid l, alookup rid oo = some l → nonIncTo dm college l) :
    ∀ e ∈ (merge_routes input dm college faculty oo).state, nonIncTo dm college e.stops := by
  have hinit : ChainInv dm college (initState input) := by
    constructor
    · rw [initState, List.map_map]; exact hnd
    · intro e he
      obtain ⟨r, hr, rfl⟩ := List.mem_map.mp he
      exact hmono r hr
  have hfinal : ChainInv dm college (merge_routes input dm college faculty oo).state := by
    rw [merge_routes_def]
    split_ifs with h
    · exact hinit
    · simp only []
      rcases foldl_stepTrial_eq_or_mem (mergeTrials input dm college faculty oo)
          ⟨initState input, 0, [], []⟩ with heq | hmem
      · rw [mergeBest, heq]
        exact hinit
      · rw [mergeBest]
        obtain ⟨c, -, hc⟩ := List.mem_map.mp hmem
        rw [← hc]
        exact runT_ChainInv dm college faculty oo horders c (initState input) hinit
  exact hfinal.2

/-- C4 witness: on `exMono2` (a single route visiting hub-distances 2 then
1, inbound order, no canonical orders) the unchanged final route is
non-increasing in hub-distance. -/
theorem C4_witness : nonIncTo dmEx 0 [2, 1] := by
  have h := C4_directional_monotonicity exMono2 dmEx 0 [] [] (by decide)
    (by
      intro r hr
      rcases List.mem_singleton.mp hr with rfl
      show List.Chain' (fun a b => dmEx b 0 ≤ dmEx a 0) [2, 1]
      rw [List.chain'_cons]
      exact ⟨by norm_num [dmEx], List.chain'_singleton 1⟩)
    (fun rid l hl => Option.noConfusion hl)
  exact h ⟨0, [2, 1], 100, [(2, 50), (1, 50)]⟩ (by decide)

lemma goodSub_sublist (dm : Stop → Stop → ℚ) (college : Stop) (faculty : List Stop)
    (oo : List (RId × List Stop)) :
    ∀ (ms : List RId) (st : List RouteEntry),
    (goodSub dm college faculty oo st ms).Sublist ms := by
  intro ms
  induction ms with
  | nil => intro st; exact List.Sublist.refl []
  | cons m ms ih =>
    intro st
    by_cases hp : (findEntry m st).isSome
    · rcases hres : (try_merge_route m st dm college faculty oo).1 with _ | st'
      · have hred : goodSub dm college faculty oo st (m :: ms) =
            goodSub dm college faculty oo st ms := by
          simp only [goodSub]
          rw [if_pos hp, hres]
        rw [hred]
        exact (ih st).cons m
      · have hred : goodSub dm college faculty oo st (m :: ms) =
            m :: goodSub dm college faculty oo st' ms := by
          simp only [goodSub]
          rw [if_pos hp, hres]
        rw [hred]
        exact (ih st').cons₂ m
    · have hred : goodSub dm college faculty oo st (m :: ms) =
          goodSub dm college faculty oo st ms := by
        simp only [goodSub]
        rw [if_neg hp]
      rw [hred]
      exact (ih st).cons m

lemma runT_count_goodSub (dm : Stop → Stop → ℚ) (college : Stop) (faculty : List Stop)
    (oo : List (RId × List Stop)) :
    ∀ (ms : List RId) (st : List RouteEntry),
    (runT dm college faculty oo st ms).removedCount =
      (goodSub dm college faculty oo st ms).length := by
  intro ms
  induction ms with
  | nil => intro st; rfl
  | cons m ms ih =>
    intro st
    by_cases hp : (findEntry m st).isSome
    · rcases hres : (try_merge_route m st dm college faculty oo).1 with _ | st'
      · have h1 : (runT dm college faculty oo st (m :: ms)).removedCount =
            (runT dm college faculty oo st ms).removedCount := by
          simp only [runT]
          rw [if_pos hp, hres]
        have h2 : goodSub dm college faculty oo st (m :: ms) =
            goodSub dm college faculty oo st ms := by
          simp only [goodSub]
          rw [if_pos hp, hres]
        rw [h1, h2]
        exact ih st
      · have h1 : (runT dm college faculty oo st (m :: ms)).removedCount =
            (runT dm college faculty oo st' ms).removedCount + 1 := by
          simp only [runT]
          rw [if_pos hp, hres]
        have h2 : goodSub dm college faculty oo st (m :: ms) =
            m :: goodSub dm college faculty oo st' ms := by
          simp only [goodSub]
          rw [if_pos hp, hres]
        rw [h1, h2, List.length_cons, ih st']
    · have h1 : (runT dm college faculty oo st (m :: ms)).removedCount =
          (runT dm college faculty oo st ms).removedCount := by
        simp only [runT]
        rw [if_neg hp]
      have h2 : goodSub dm college faculty oo st (m :: ms) =
          goodSub dm college faculty oo st ms := by
        simp only [goodSub]
        rw [if_neg hp]
      rw [h1, h2]
      exact ih st

lemma runT_replay (dm : Stop → Stop → ℚ) (college : Stop) (faculty : List Stop)
    (oo : List (RId × List Stop)) :
    ∀ (ms : List RId) (st : List RouteEntry),
    (runT dm college faculty oo st (goodSub dm college faculty oo st ms)).state =
      (runT dm college faculty oo st ms).state ∧
    (runT dm college faculty oo st (goodSub dm college faculty oo st ms)).removedCount =
      (runT dm college faculty oo st ms).removedCount ∧
    (runT dm college faculty oo st (goodSub dm college faculty oo st ms)).removed =
      (runT dm college faculty oo st ms).removed := by
  intro ms
  induction ms with
  | nil => intro st; exact ⟨rfl, rfl, rfl⟩
  | cons m ms ih =>
    intro st
    by_cases hp : (findEntry m st).isSome
    · rcases hres : (try_merge_route m st dm college faculty oo).1 with _ | st'
      · have hred : goodSub dm college faculty oo st (m :: ms) =
            goodSub dm college faculty oo st ms := by
          simp only [goodSub]
          rw [if_pos hp, hres]
        have hfields : (runT dm college faculty oo st (m :: ms)).state =
              (runT dm college faculty oo st ms).state ∧
            (runT dm college faculty oo st (m :: ms)).removedCount =
              (runT dm college faculty oo st ms).removedCount ∧
            (runT dm college faculty oo st (m :: ms)).removed =
              (runT dm college faculty oo st ms).removed := by
          refine ⟨?_, ?_, ?_⟩ <;> (simp only [runT]; rw [if_pos hp, hres])
        rw [hred, hfields.1, hfields.2.1, hfields.2.2]
        exact ih st
      · have hred : goodSub dm college faculty oo st (m :: ms) =
            m :: goodSub dm college faculty oo st' ms := by
          simp only [goodSub]
          rw [if_pos hp, hres]
        rw [hred]
        have hL : (runT dm college faculty oo st
              (m :: goodSub dm college faculty oo st' ms)).state =
              (runT dm college faculty oo st'
                (goodSub dm college faculty oo st' ms)).state ∧
            (runT dm college faculty oo st
              (m :: goodSub dm college faculty oo st' ms)).removedCount =
              (runT dm college faculty oo st'
                (goodSub dm college faculty oo st' ms)).removedCount + 1 ∧
            (runT dm college faculty oo st
              (m :: goodSub dm college faculty oo st' ms)).removed =
              m :: (runT dm college faculty oo st'
                (goodSub dm college faculty oo st' ms)).removed := by
          refine ⟨?_, ?_, ?_⟩ <;> (simp only [runT]; rw [if_pos hp, hres])
        have hR : (runT dm college faculty oo st (m :: ms)).state =
              (runT dm college faculty oo st' ms).state ∧
            (runT dm college faculty oo st (m :: ms)).removedCount =
              (runT dm college faculty oo st' ms).removedCount + 1 ∧
            (runT dm college faculty oo st (m :: ms)).removed =
              m :: (runT dm college faculty oo st' ms).removed := by
          refine ⟨?_, ?_, ?_⟩ <;> (simp only [runT]; rw [if_pos hp, hres])
        obtain ⟨ih1, ih2, ih3⟩ := ih st'
        rw [hL.1, hL.2.1, hL.2.2, hR.1, hR.2.1, hR.2.2, ih1, ih2, ih3]
        exact ⟨rfl, rfl, rfl⟩
    · have hred : goodSub dm college faculty oo st (m :: ms) =
          goodSub dm college faculty oo st ms := by
        simp only [goodSub]
        rw [if_neg hp]
      have hfields : (runT dm college faculty oo st (m :: ms)).state =
            (runT dm college faculty oo st ms).state ∧
          (runT dm college faculty oo st (m :: ms)).removedCount =
            (runT dm college faculty oo st ms).removedCount ∧
          (runT dm college faculty oo st (m :: ms)).removed =
            (runT dm college faculty oo st ms).removed := by
        refine ⟨?_, ?_, ?_⟩ <;> (simp only [runT]; rw [if_neg hp])
      rw [hred, hfields.1, hfields.2.1, hfields.2.2]
      exact ih st

lemma runT_clean (dm : Stop → Stop → ℚ) (college : Stop) (faculty : List Stop)
    (oo : List (RId × List Stop)) :
    ∀ (ms : List RId) (st : List RouteEntry),
    goodSub dm college faculty oo st ms = ms →
    ∀ op ∈ (runT dm college faculty oo st ms).ops,
      op.fromRoute ∈ (runT dm college faculty oo st ms).removed := by
  intro ms
  induction ms with
  | nil => intro st _ op hop; cases hop
  | cons m ms ih =>
    intro st hgs
    by_cases hp : (findEntry m st).isSome
    · rcases hres : (try_merge_route m st dm college faculty oo).1 with _ | st'
      · exfalso
        have hred : goodSub dm college faculty oo st (m :: ms) =
            goodSub dm college faculty oo st ms := by
          simp only [goodSub]
          rw [if_pos hp, hres]
        rw [hred] at hgs
        have hlen := congrArg List.length hgs
        rw [List.length_cons] at hlen
        have hle := (goodSub_sublist dm college faculty oo ms st).length_le
        omega
      · have hred : goodSub dm college faculty oo st (m :: ms) =
            m :: goodSub dm college faculty oo st' ms := by
          simp only [goodSub]
          rw [if_pos hp, hres]
        rw [hred] at hgs
        have htail : goodSub dm college faculty oo st' ms = ms := by
          injection hgs
        have hops : (runT dm college faculty oo st (m :: ms)).ops =
            (try_merge_route m st dm college faculty oo).2 ++
              (runT dm college faculty oo st' ms).ops := by
          simp only [runT]
          rw [if_pos hp, hres]
        have hrem : (runT dm college faculty oo st (m :: ms)).removed =
            m :: (runT dm college faculty oo st' ms).removed := by
          simp only [runT]
          rw [if_pos hp, hres]
        intro op hop
        rw [hops] at hop
        rw [hrem]
        rcases List.mem_append.mp hop with hop | hop
        · rw [(try_ops m st dm college faculty oo op hop).1]
          exact List.mem_cons_self m _
        · exact List.mem_cons_of_mem m (ih st' htail op hop)
    · exfalso
      have hred : goodSub dm college faculty oo st (m :: ms) =
          goodSub dm college faculty oo st ms := by
        simp only [goodSub]
        rw [if_neg hp]
      rw [hred] at hgs
      have hlen := congrArg List.length hgs
      rw [List.length_cons] at hlen
      have hle := (goodSub_sublist dm college faculty oo ms st).length_le
      omega

/-- C3: a failed candidate-route attempt has no effect on the trial state —
the working routes, totals, ledger and removal count continue unchanged —
and in the final Merge Ledger returned by `merge_routes`, every logged merge
operation belongs to a committed (successfully removed) candidate route: a
failed attempt leaves no merge-operation entries in the final ledger. -/
theorem C3_failed_attempt_rollback (input : List RouteIn) (dm : Stop → Stop → ℚ)
    (college : Stop) (faculty : List Stop) (oo : List (RId × List Stop))
    (m : RId) (st : List RouteEntry) (ms : List RId)
    (hfail : (try_merge_route m st dm college faculty oo).1 = none) :
    ((runT dm college faculty oo st (m :: ms)).state =
        (runT dm college faculty oo st ms).state ∧
      (runT dm college faculty oo st (m :: ms)).removedCount =
        (runT dm college faculty oo st ms).removedCount ∧
      (runT dm college faculty oo st (m :: ms)).removed =
        (runT dm college faculty oo st ms).removed) ∧
    (∀ op ∈ (merge_routes input dm college faculty oo).ops,
      op.fromRoute ∈ (merge_routes input dm college faculty oo).removed) := by
  constructor
  · by_cases hp : (findEntry m st).isSome
    · refine ⟨?_, ?_, ?_⟩ <;> (simp only [runT]; rw [if_pos hp, hfail])
    · refine ⟨?_, ?_, ?_⟩ <;> (simp only [runT]; rw [if_neg hp])
  · rw [merge_routes_def]
    split_ifs with hz
    · intro op hop; cases hop
    · simp only []
      obtain ⟨hall, hb0, hdisj⟩ := foldl_stepTrial_spec
        (mergeTrials input dm college faculty oo) ⟨initState input, 0, [], []⟩
      have hbdef : mergeBest input dm college faculty oo =
          (mergeTrials input dm college faculty oo).foldl stepTrial
            ⟨initState input, 0, [], []⟩ := rfl
      rcases hdisj with heq | ⟨i, hi, heq, hlt0, hpre⟩
      · exfalso
        apply hz
        rw [hbdef, heq]
      · have hTlen : (mergeTrials input dm college faculty oo).length =
            (allCombos (input.map (fun r => r.rid))).length :=
          List.length_map _ _
        have hi' : i < (allCombos (input.map (fun r => r.rid))).length := by
          rw [← hTlen]; exact hi
        have hTi : (mergeTrials input dm college faculty oo).get ⟨i, hi⟩ =
            runT dm college faculty oo (initState input)
              ((allCombos (input.map (fun r => r.rid))).get ⟨i, hi'⟩) := by
          show (List.map (fun c => runT dm college faculty oo (initState input) c)
            (allCombos (input.map (fun r : RouteIn => r.rid)))).get ⟨i, hi⟩ = _
          simp only [List.get_eq_getElem, List.getElem_map]
        rw [hbdef, heq, hTi] at hz ⊢
        set ids := input.map (fun r => r.rid) with hids
        set CK := (allCombos ids).get ⟨i, hi'⟩ with hCK
        set σ := goodSub dm college faculty oo (initState input) CK with hσ
        by_cases hσeq : σ = CK
        · intro op hop
          refine runT_clean dm college faculty oo CK (initState input) ?_ op hop
          rw [← hσ]
          exact hσeq
        · exfalso
          have hsub : σ.Sublist CK := by
            rw [hσ]
            exact goodSub_sublist dm college faculty oo CK (initState input)
          have hlenlt : σ.length < CK.length :=
            lt_of_le_of_ne hsub.length_le (fun hl => hσeq (hsub.eq_of_length hl))
          have hCmem : CK ∈ allCombos ids := by
            rw [hCK]
            simp only [List.get_eq_getElem]
            exact List.getElem_mem hi'
          obtain ⟨-, hCsub⟩ := (mem_allCombos ids CK).mp hCmem
          have hσsubids : σ.Sublist ids := hsub.trans hCsub
          have hc : (runT dm college faculty oo (initState input) CK).removedCount =
              σ.length := by
            rw [hσ]
            exact runT_count_goodSub dm college faculty oo CK (initState input)
          have hcpos : 0 < (runT dm college faculty oo (initState input) CK).removedCount :=
            Nat.pos_of_ne_zero hz
          have hc1 : 1 ≤ σ.length := by omega
          have hcle : σ.length ≤ ids.length := hσsubids.length_le
          have hsplit : allCombos ids =
              (List.range σ.length).flatMap (fun k => combos (k + 1) ids) ++
              ((List.range (ids.length - σ.length)).map (fun x => σ.length + x)).flatMap
                (fun k => combos (k + 1) ids) := by
            rw [allCombos, show ids.length = σ.length + (ids.length - σ.length) by omega,
              List.range_add, List.flatMap_append, Nat.add_sub_cancel_left]
          set P := (List.range σ.length).flatMap (fun k => combos (k + 1) ids) with hP
          have hσP : σ ∈ P := by
            rw [hP]
            refine List.mem_flatMap.mpr ⟨σ.length - 1, List.mem_range.mpr (by omega), ?_⟩
            rw [show σ.length - 1 + 1 = σ.length by omega]
            exact combos_complete hσsubids
          obtain ⟨j0, hj0, hj0eq⟩ := List.mem_iff_getElem.mp hσP
          by_cases hiP : i < P.length
          · have hCKP : CK ∈ P := by
              have hgl : (allCombos ids).get ⟨i, hi'⟩ = P.get ⟨i, hiP⟩ := by
                simp only [List.get_eq_getElem]
                rw [List.getElem_of_eq hsplit hi']
                exact List.getElem_append_left hiP
              rw [hCK, hgl]
              exact P.get_mem i hiP
            obtain ⟨k, hk, hCk⟩ := List.mem_flatMap.mp hCKP
            have hlk : CK.length = k + 1 := (combos_sound ids (k + 1) CK hCk).1
            have hkc : k < σ.length := List.mem_range.mp hk
            omega
          · have hj0i : j0 < i := lt_of_lt_of_le hj0 (le_of_not_lt hiP)
            have hj0A : j0 < (allCombos ids).length := lt_trans hj0i hi'
            have hj0T : j0 < (mergeTrials input dm college faculty oo).length := by
              rw [hTlen]
              exact hj0A
            have hTj0 : (mergeTrials input dm college faculty oo).get ⟨j0, hj0T⟩ =
                runT dm college faculty oo (initState input) σ := by
              show (List.map (fun c => runT dm college faculty oo (initState input) c)
                (allCombos ids)).get ⟨j0, hj0T⟩ = _
              have hgl : (allCombos ids).get ⟨j0, hj0A⟩ = P.get ⟨j0, hj0⟩ := by
                simp only [List.get_eq_getElem]
                rw [List.getElem_of_eq hsplit hj0A]
                exact List.getElem_append_left hj0
              have h2 : P.get ⟨j0, hj0⟩ = σ := by
                simp only [List.get_eq_getElem]
                exact hj0eq
              have h3 := hgl.trans h2
              simp only [List.get_eq_getElem] at h3
              simp only [List.get_eq_getElem, List.getElem_map]
              rw [h3]
            have hcount : ((mergeTrials input dm college faculty oo).get
                ⟨j0, hj0T⟩).removedCount = σ.length := by
              rw [hTj0, hσ]
              rw [(runT_replay dm college faculty oo CK (initState input)).2.1]
              rw [← hσ]
              exact hc
            have hlt := hpre j0 hj0T hj0i
            rw [hcount, heq, hTi, hc] at hlt
            exact lt_irrefl _ hlt

/-- C3 witness: on `exBig` a removal attempt of route 0 fails (its only
stop, demand 100, has nowhere to go); the trial state after attempting it is
the unchanged initial state, and every ledger operation of the `exInput` run
belongs to a committed removal. -/
theorem C3_witness :
    (runT dmEx 99 [] [] (initState exBig) [0]).state =
      (runT dmEx 99 [] [] (initState exBig) []).state ∧
    (⟨10, 20, 1, 4, 1⟩ : MergeOp).fromRoute ∈ (merge_routes exInput dmEx 0 [] []).removed := by
  constructor
  · exact (C3_failed_attempt_rollback exBig dmEx 99 [] [] 0 (initState exBig) []
      (by decide)).1.1
  · exact (C3_failed_attempt_rollback exInput dmEx 0 [] [] 0 (initState exBig) []
      (by decide)).2 ⟨10, 20, 1, 4, 1⟩ (by decide)

/-- C1 witness: on `exInput` (route totals 4, 7, 4, all ≤ 60, distinct ids)
every final route's ledger total is within capacity; in particular the
single surviving route's total, 22, is at most 60. -/
theorem C1_witness :
    ledgerSum [((3 : Stop), (4 : ℚ)), (2, 4), (1, 14)] ≤ MAX_CAPACITY := by
  have h := C1_capacity_limit exInput dmEx 0 [] [] (by decide) (by decide)
  exact h.1 ⟨30, [3, 2, 1, 1], 22, [(3, 4), (2, 4), (1, 14)]⟩ (by decide)

/-- C2 is violated by the code: on `exInput` the accepted removals of routes
10 and 20 ignore no stop at all, yet the final ledger total (22) exceeds the
initial one (15) — demand is duplicated when stop 1 is inserted into route
20, which already serves it, and route 20 is later removed. -/
theorem C2_demand_inflation :
    totalLedgerSum (initState exInput) = 15 ∧
    (merge_routes exInput dmEx 0 [] []).removed = [10, 20] ∧
    totalLedgerSum ((merge_routes exInput dmEx 0 [] []).state) = 22 := by decide

/-- C1 counterexample: the single input route of `exBig` carries total
demand 100 > 60; no merge is possible, so `merge_routes` returns it
unchanged and the final result violates the capacity limit. -/
theorem C1_counterexample :
    (merge_routes exBig dmEx 99 [] []).state = [⟨0, [7], 100, [(7, 100)]⟩] ∧
    ¬ ledgerSum [(7, 100)] ≤ MAX_CAPACITY := by decide

/-- C4 counterexample: the single input route of `exMono` visits its stops
in hub-distance order 1 then 2 (moving away from the hub); it cannot be
removed, so the final result contains a route whose hub-distance sequence is
not non-increasing. -/
theorem C4_counterexample :
    (merge_routes exMono dmEx 0 [] []).state = [⟨0, [1, 2], 100, [(1, 50), (2, 50)]⟩] ∧
    ¬ nonIncTo dmEx 0 [1, 2] := by
  constructor
  · decide
  · simp only [nonIncTo, List.chain'_cons, List.chain'_singleton, and_true]
    decide

end RouteMerger
